import Mathlib

/-!
Shallow embedding of `scraper.js`: the identity-reconciliation and
email-resolution engine of the australia_lg_councillors_emails repository.

JavaScript values are modelled as follows: strings are `String` (all data in
the claims is ASCII, where Lean's character order coincides with the UTF-16
code-unit order used by JavaScript string comparison); possibly-`undefined`
object fields are `Option String`; JavaScript truthiness of such a field is
`truthy` (both `undefined` and `""` are falsy); a callback that can observe a
thrown exception is modelled with `Option` on the result (`none` = the
exception propagated and the run crashed before reaching its callback).
-/

namespace Scraper

/-- Character class of the regex `[a-zA-Z0-9._%+-]` (local part of
`EMAIL_REGEX`, and the whole of `USER_REGEX`). -/
def isLocalChar (c : Char) : Bool :=
  c.isAlpha || c.isDigit || c = '.' || c = '_' || c = '%' || c = '+' || c = '-'

/-- Character class of the regex `[a-zA-Z0-9.-]` (domain part of
`EMAIL_REGEX`). -/
def isDomainChar (c : Char) : Bool :=
  c.isAlpha || c.isDigit || c = '.' || c = '-'

/-- Whitespace removed by JavaScript's `String.prototype.trim` (ASCII
whitespace; the Unicode cases never arise in this development). -/
def isJsSpace (c : Char) : Bool :=
  c = ' ' || c = '\t' || c = '\n' || c = '\r' || c.toNat = 11 || c.toNat = 12

/-- `String.prototype.trim`. -/
def jsTrim (s : String) : String :=
  String.mk (((s.toList.dropWhile isJsSpace).reverse.dropWhile isJsSpace).reverse)

/-- `String.prototype.toLowerCase`, for the ASCII data of this program. -/
def jsToLower (s : String) : String :=
  String.mk (s.toList.map Char.toLower)

/-!
Levenshtein distance, as computed by the `levenshtein` npm package used at
`new levenshtein(nameLower, user)`: the standard dynamic program, one row per
character of the first string.
-/

/-- One row-update step of the Levenshtein dynamic program: given the previous
row (starting at the diagonal entry) and the value to the left, produce the
rest of the current row. -/
def nextRow (x : Char) : List Char → List Nat → Nat → List Nat
  | [], _, _ => []
  | _ :: _, [], _ => []
  | y :: ys, p :: ps, left =>
    let up := ps.headD 0
    let cur := if x = y then p else 1 + min p (min up left)
    cur :: nextRow x ys ps cur

/-- Iterate the dynamic program over the characters of the first string. -/
def levRows (ys : List Char) : List Char → List Nat → Nat → List Nat
  | [], row, _ => row
  | x :: xs, row, i => levRows ys xs ((i + 1) :: nextRow x ys row (i + 1)) (i + 1)

/-- Levenshtein distance between two character lists (`lev.distance`). -/
def levenshtein (a b : List Char) : Nat :=
  (levRows b a (List.range (b.length + 1)) 0).getLastD 0

/-!
`EMAIL_REGEX = /[a-zA-Z0-9._%+-]+@[a-zA-Z0-9.-]+\.[a-z]{2,4}/g` and
`matchEmails`.  The backtracking behaviour of the regex engine on this
pattern is deterministic and is reproduced directly:

* the local part is a maximal nonempty run of `isLocalChar` characters
  followed by a literal `'@'` (backtracking the `+` can never expose an
  `'@'`, since `'@'` is not in the class);
* after the `'@'`, let `D` be the maximal run of `isDomainChar` characters;
  the engine tries domain lengths from longest to shortest, so the `\.` of
  the pattern matches the rightmost `'.'` of `D` that is followed by at
  least two lowercase letters, and `[a-z]{2,4}` then greedily takes up to
  four of them (lowercase letters are domain characters, so the whole match
  stays inside `local ++ '@' ++ D`).
-/

/-- Split the maximal domain run `D` at the rightmost `'.'` that is followed
by a run of at least two lowercase letters, returning
(domain-before-dot, tld of length 2 to 4, leftover of `D`). -/
def findDomainSplit : List Char → Option (List Char × List Char × List Char)
  | [] => none
  | c :: cs =>
    match findDomainSplit cs with
    | some (dom, tld, rem) => some (c :: dom, tld, rem)
    | none =>
      if c = '.' then
        let run := cs.takeWhile Char.isLower
        let rest := cs.dropWhile Char.isLower
        if 2 ≤ run.length then some ([], run.take 4, run.drop 4 ++ rest)
        else none
      else none

/-- Attempt to match `EMAIL_REGEX` at the start of `cs`; on success return the
matched characters and the remainder of the input. -/
def tryMatch (cs : List Char) : Option (List Char × List Char) :=
  let lp := cs.takeWhile isLocalChar
  match cs.dropWhile isLocalChar with
  | [] => none
  | c :: rest2 =>
    if lp.isEmpty then none
    else if c = '@' then
      let D := rest2.takeWhile isDomainChar
      let after := rest2.dropWhile isDomainChar
      match findDomainSplit D with
      | none => none
      | some (dom, tld, rem) =>
        if dom.isEmpty then none
        else some (lp ++ '@' :: dom ++ '.' :: tld, rem ++ after)
    else none

/-- Global scan of `EMAIL_REGEX` over the input: try to match at each
position, emit every match, and resume after each match (fuel is the input
length; every match consumes at least one character). -/
def scanEmails : Nat → List Char → List (List Char)
  | 0, _ => []
  | fuel + 1, cs =>
    match tryMatch cs with
    | some (m, rest) => m :: scanEmails fuel rest
    | none =>
      match cs with
      | [] => []
      | _ :: cs' => scanEmails fuel cs'

/-- `matchEmails(text) = text.match(EMAIL_REGEX) || []`. -/
def matchEmails (text : String) : List String :=
  (scanEmails text.toList.length text.toList).map String.mk

/-!
`getBestEmail` (the Match Scorer) and its helpers.
-/

/-- `USER_REGEX = /^[a-zA-Z0-9._%+-]+/` applied with
`email.toLowerCase().match(USER_REGEX)`: the maximal leading run of local-part
characters, or `none` when the regex does not match — in which case the
JavaScript `.toString()` is applied to `null` and throws a `TypeError`. -/
def userMatch (s : String) : Option String :=
  let run := s.toList.takeWhile isLocalChar
  if run.isEmpty then none else some (String.mk run)

/-- `FIRST_REGEX = /^[a-z]+/` on the lower-cased name: the leading run of
lowercase letters, `none` when there is no such run. -/
def firstProbe (s : String) : Option String :=
  let run := s.toList.takeWhile Char.isLower
  if run.isEmpty then none else some (String.mk run)

/-- `LAST_REGEX = /[a-z]+$/` on the lower-cased name: the trailing run of
lowercase letters, `none` when there is no such run. -/
def lastProbe (s : String) : Option String :=
  let run := (s.toList.reverse.takeWhile Char.isLower).reverse
  if run.isEmpty then none else some (String.mk run)

/-- Does `hay` start with `pat`? -/
def startsWithB : List Char → List Char → Bool
  | [], _ => true
  | _ :: _, [] => false
  | p :: ps, h :: hs => p = h && startsWithB ps hs

/-- Does `pat` occur as a contiguous substring of `hay`
(`hay.indexOf(pat) != -1`)?  The empty pattern occurs everywhere. -/
def hasSubstr (pat : List Char) : List Char → Bool
  | [] => pat.isEmpty
  | c :: t => startsWithB pat (c :: t) || hasSubstr pat t

/-- `containsAny(haystack, list)`: the number of items of `list` occurring as
substrings of `haystack` (used for its truthiness, i.e. nonzero-ness).
JavaScript `indexOf` of the empty string is `0`, so the empty string counts. -/
def containsAny (haystack : String) (l : List String) : Nat :=
  (l.filter (fun item => hasSubstr item.toList haystack.toList)).length

/-- An entry of `emailsByDistance`: `[lev.distance, email, user]`. -/
abbrev LevTriple := Nat × String × String

/-- The string a JavaScript array `[distance, email, user]` converts to when
the default `sort()` comparator stringifies it: the elements joined by
commas, the distance in decimal. -/
def sortKey (t : LevTriple) : String :=
  toString t.1 ++ "," ++ t.2.1 ++ "," ++ t.2.2

/-- Code-unit lexicographic strict order on character lists — exactly the
comparison JavaScript's `<` performs on the stringified triples (all data
here is ASCII, so code units are code points). -/
def strLt : List Char → List Char → Bool
  | _, [] => false
  | [], _ :: _ => true
  | a :: as, b :: bs => if a = b then strLt as bs else decide (a < b)


/-- The order `Array.prototype.sort()`'s default comparator establishes on the
triples: code-unit lexicographic order of their `sortKey` strings.  Ties (by
stability) only occur between identical triples, because the key string
determines the triple. -/
def keyLe (a b : LevTriple) : Prop :=
  strLt (sortKey b).toList (sortKey a).toList = false

instance : DecidableRel keyLe := fun _ _ => inferInstanceAs (Decidable (_ = _))


/-- Build the `[lev.distance, email, user]` triple for one candidate, `none`
when `USER_REGEX` fails to match (the real code throws there). -/
def tripleOf (nameLower : String) (email : String) : Option LevTriple :=
  (userMatch (jsToLower email)).map fun user =>
    (levenshtein nameLower.toList user.toList, email, user)

/-- All triples of `emails.map(...)`, `none` as soon as one candidate makes
`USER_REGEX` fail (the thrown `TypeError` aborts the whole call). -/
def triplesOf (nameLower : String) : List String → Option (List LevTriple)
  | [] => some []
  | e :: es =>
    match tripleOf nameLower e, triplesOf nameLower es with
    | some t, some ts => some (t :: ts)
    | _, _ => none

/-- The `firstOrLast` probe list: the first-name run, then the last-name run,
each dropped when its regex finds nothing. -/
def firstOrLast (nameLower : String) : List String :=
  (firstProbe nameLower).toList ++ (lastProbe nameLower).toList

/-- The predicate of `emailsByDistance.filter(...)`: the candidate's user part
contains at least one of the probes (`containsAny` used for truthiness). -/
def matchPred (nameLower : String) (t : LevTriple) : Bool :=
  containsAny t.2.2 (firstOrLast nameLower) != 0

/-- `getBestEmail(name, emails)`: lower-case and trim the name, map each
candidate to its `[distance, email, user]` triple, sort with the default
(stringifying) comparator, keep the triples whose user part contains the
first or last name, and return the first of those; fall back to
`no-matching-email` with the first sorted candidate, then `no-email-found`.
`none` models the `TypeError` thrown when a candidate has no user part. -/
def getBestEmail (name : String) (emails : List String) : Option (String × String) :=
  let nameLower := jsToLower (jsTrim name)
  match triplesOf nameLower emails with
  | none => none
  | some triples =>
    let sorted := List.insertionSort keyLe triples
    match sorted.filter (matchPred nameLower), sorted with
    | t :: _, _ => some ("email", t.2.1)
    | [], t :: _ => some ("no-matching-email", t.2.1)
    | [], [] => some ("no-email-found", "")

/-!
Rows and the Source Reconciler (`keyFromRow`, `mergeStateDatabase`,
`fetchAndMergeStateDatabases`).
-/

/-- A loosely-typed JavaScript row object: every field possibly `undefined`.
Database rows only ever populate the six stored columns plus the transient
`result`; external dataset rows may instead use `name`, `council` and
`council_url`.  A single structure models both, as the JavaScript functions
are duck-typed over both shapes. -/
structure JRow where
  councillor : Option String := none
  name : Option String := none
  position : Option String := none
  council_name : Option String := none
  council : Option String := none
  ward : Option String := none
  council_website : Option String := none
  council_url : Option String := none
  email : Option String := none
  result : Option String := none
deriving DecidableEq, Repr, Inhabited

/-- JavaScript truthiness of a possibly-`undefined` string field: `undefined`
and `""` are falsy, every other string is truthy. -/
def truthy : Option String → Bool
  | none => false
  | some s => s ≠ ""

/-- The JavaScript `||` operator on possibly-`undefined` string fields. -/
def jsOr (a b : Option String) : Option String := if truthy a then a else b

/-- `keyFromRow(row)`: `(row.councillor || row.name || "") +
(row.council_name || row.council || "")`, trimmed. -/
def keyFromRow (row : JRow) : String :=
  let nm := jsOr (jsOr row.councillor row.name) (some "")
  let cl := jsOr (jsOr row.council_name row.council) (some "")
  jsTrim (nm.getD "" ++ cl.getD "")

/-- The normalized Person Record `mergeStateDatabase` builds from an external
row (the `newRow` object literal). -/
def normalizeRow (r : JRow) : JRow :=
  { councillor := jsOr r.councillor r.name
    name := none
    position := r.position
    council_name := jsOr r.council_name r.council
    council := none
    ward := r.ward
    council_website := jsOr r.council_website r.council_url
    council_url := none
    email := r.email
    result := none }

/-- `mergeStateDatabase(newRows, rowMap, other)`: walk `other`, skip rows
whose key is already in the map, otherwise append the normalized row and
record its key.  The hash map is modelled by its key set, threaded through as
a list; the function returns the appended rows and the grown key set. -/
def mergeStateDatabase : List String → List JRow → List JRow × List String
  | keys, [] => ([], keys)
  | keys, r :: rs =>
    let k := keyFromRow r
    if k ∈ keys then mergeStateDatabase keys rs
    else
      let m := mergeStateDatabase (k :: keys) rs
      (normalizeRow r :: m.1, m.2)

/-- One reconciliation pass over the configured external datasets in listed
order, all sharing one `rowMap` (as `fetchAndMergeStateDatabases` does). -/
def mergePass : List String → List (List JRow) → List JRow × List String
  | keys, [] => ([], keys)
  | keys, b :: bs =>
    let m := mergeStateDatabase keys b
    let rest := mergePass m.2 bs
    (m.1 ++ rest.1, rest.2)

/-- The reconciliation pass with fallible fetches: each dataset fetch yields
either its parsed row list or `none` (the request errored, so
`fetchDatabase` invoked its callback with `null`).  `mergeStateDatabase`
then calls `null.forEach`, which throws; the exception propagates out of the
callback and the process dies, so the final persistence callback is never
reached — modelled by a `none` overall result. -/
def fetchAndMergePass : List String → List (Option (List JRow)) → Option (List JRow)
  | _, [] => some []
  | _, none :: _ => none
  | keys, some b :: rest =>
    let m := mergeStateDatabase keys b
    (fetchAndMergePass m.2 rest).map (fun o => m.1 ++ o)

/-!
The Resolution Loop and Run Scheduler (`getEmail`, `findEmails`,
`updateAll`).  Network collaborators are oracles: `fetch` maps a URL to the
page body `fetchPage` hands back, `render` models `htmlToText`'s extraction
of the body text of a snippet (the cheerio library is an external
collaborator), and the per-row search oracle maps a row index to what
`googleSearch` hands the `getEmail` callback.
-/

/-- One google search result item: `{url, content, fileFormat?}`. -/
structure SearchResult where
  url : String := ""
  content : String := ""
  fileFormat : Option String := none
deriving DecidableEq, Repr, Inhabited

/-- What the search collaborator hands back for one query: `fail` models a
request error (`googleSearch` calls back with `null`), `empty` a parsed body
with no `responseData.results`, `ok` a structured result list. -/
inductive SearchResponse where
  | fail
  | empty
  | ok (results : List SearchResult)
deriving DecidableEq, Repr, Inhabited

/-- `MAX_SEARCH_RESULTS = 10`. -/
def MAX_SEARCH_RESULTS : Nat := 10

/-- `MAX_SEARCHES_PER_RUN = 200`. -/
def MAX_SEARCHES_PER_RUN : Nat := 200

/-- `getEmailsInResultPage(results, index, emails, finalCallback)`: starting
at `index`, fetch each result's URL and append the emails matched in the raw
body, stopping at the end of the list or at `MAX_SEARCH_RESULTS`.  Returns
the accumulated emails and, for the claims about fetching, the list of URLs
passed to the page-fetch collaborator. -/
def getEmailsInResultPage (fetch : String → String) :
    List SearchResult → Nat → List String → List String × List String
  | [], _, emails => (emails, [])
  | r :: rest, index, emails =>
    if MAX_SEARCH_RESULTS ≤ index then (emails, [])
    else
      let html := fetch r.url
      let res := getEmailsInResultPage fetch rest (index + 1) (emails ++ matchEmails html)
      (res.1, r.url :: res.2)

/-- `getEmailsFromSearch(results, callback)`: emails matched in every
result's snippet (rendered through the html-to-text collaborator), then the
page-body emails of the first `MAX_SEARCH_RESULTS` results. -/
def getEmailsFromSearch (fetch render : String → String)
    (results : List SearchResult) : List String × List String :=
  let snippetEmails :=
    (results.map (fun r => matchEmails (render ("<body>" ++ r.content ++ "</body>")))).flatten
  getEmailsInResultPage fetch results 0 snippetEmails

/-- `getEmail(row, callback)`: ask the search collaborator, record
`error-during-search` or `no-search-results` without touching `email`, or
score the extracted candidates and record the outcome and email.  `none`
models the `TypeError` `getBestEmail` can throw. -/
def getEmail (fetch render : String → String) (resp : SearchResponse)
    (row : JRow) : Option JRow :=
  match resp with
  | .fail => some { row with result := some "error-during-search" }
  | .empty => some { row with result := some "no-search-results" }
  | .ok results =>
    let emails := (getEmailsFromSearch fetch render results).1
    (getBestEmail (row.councillor.getD "") emails).map
      (fun p => { row with email := some p.2, result := some p.1 })

/-- One step of the synchronous `forEach` body of `findEmails`, before the
deferred `getEmail` calls run: given the running `getEmailCount`, classify
the row (budget exhausted / existing email / missing fields) or mark it for
dispatch.  Returns the possibly-annotated row, whether a search task was
scheduled for it, and the new count. -/
def planStep (count : Nat) (row : JRow) : JRow × Bool × Nat :=
  if MAX_SEARCHES_PER_RUN ≤ count then (row, false, count)
  else if truthy row.email then
    ({ row with result := some "existing-email" }, false, count)
  else if !truthy row.councillor then
    ({ row with result := some "no-councillor-name" }, false, count)
  else if !truthy row.council_website then
    ({ row with result := some "no-council-website" }, false, count)
  else (row, true, count + 1)

/-- The whole synchronous `forEach` of `findEmails`: because every `getEmail`
call is deferred with `setImmediate`, the entire iteration — including every
budget decision — completes before any search runs, so the dispatch plan is a
pure function of the rows. -/
def findEmailsPlan : List JRow → Nat → List (JRow × Bool)
  | [], _ => []
  | r :: rs, count =>
    let s := planStep count r
    (s.1, s.2.1) :: findEmailsPlan rs s.2.2

/-- The indices (in stored order) whose rows the plan dispatches: each one
issues exactly one search-collaborator call. -/
def searchesIssuedAux : Nat → List (JRow × Bool) → List Nat
  | _, [] => []
  | i, (_, d) :: rest =>
    if d then i :: searchesIssuedAux (i + 1) rest
    else searchesIssuedAux (i + 1) rest

/-- The indices of the rows a run issues searches for. -/
def searchesIssued (rows : List JRow) : List Nat :=
  searchesIssuedAux 0 (findEmailsPlan rows 0)

/-- Run the deferred search tasks of the plan in queue order, recording in a
trace the index of every search issued.  `none` models a task throwing (the
process dies before `callback`, hence before `updateAll`). -/
def runSearchesAux (fetch render : String → String) (oracle : Nat → SearchResponse) :
    Nat → List (JRow × Bool) → Option (List JRow × List Nat)
  | _, [] => some ([], [])
  | i, (r, false) :: rest =>
    (runSearchesAux fetch render oracle (i + 1) rest).map
      (fun p => (r :: p.1, p.2))
  | i, (r, true) :: rest =>
    match getEmail fetch render (oracle i) r with
    | none => none
    | some r' =>
      (runSearchesAux fetch render oracle (i + 1) rest).map
        (fun p => (r' :: p.1, i :: p.2))

/-- A full `findEmails` pass over the known rows: plan synchronously, then run
the deferred tasks.  Returns the updated rows and the trace of issued
searches, or `none` when the run crashed. -/
def findEmailsRun (fetch render : String → String) (oracle : Nat → SearchResponse)
    (rows : List JRow) : Option (List JRow × List Nat) :=
  runSearchesAux fetch render oracle 0 (findEmailsPlan rows 0)

/-- The `UPDATE data SET email = ? WHERE rowid = ?` statements `updateAll`
issues, as (rowid, new email value) pairs: rowid is position + 1; outcome
`email` writes the found address, `no-matching-email` and `no-email-found`
write the sentinel `"none"`, everything else (no outcome, `existing-email`,
the error outcomes) writes nothing. -/
def updateOpsAux : Nat → List JRow → List (Nat × Option String)
  | _, [] => []
  | i, r :: rs =>
    let rest := updateOpsAux (i + 1) rs
    match r.result with
    | none => rest
    | some res =>
      if res = "email" then (i + 1, r.email) :: rest
      else if res = "no-matching-email" then (i + 1, some "none") :: rest
      else if res = "no-email-found" then (i + 1, some "none") :: rest
      else rest

/-- All database updates `updateAll` issues for the processed rows. -/
def updateOps (rows : List JRow) : List (Nat × Option String) :=
  updateOpsAux 0 rows

/-- Number of dispatched entries of a plan segment. -/
def dispatchCount (plan : List (JRow × Bool)) : Nat :=
  (plan.filter (fun p => p.2)).length

/-- The row annotation and dispatch decision of one plan step. -/
def planOut (count : Nat) (row : JRow) : JRow × Bool :=
  ((planStep count row).1, (planStep count row).2.1)

/-- An external record in the South Australia field naming, used as a concrete
input in witnesses. -/
def extRowA : JRow :=
  { name := some "Alice Jones", council := some "Shire of A",
    council_url := some "http://a.gov.au/" }

/-- A second concrete external record with a distinct identity key. -/
def extRowB : JRow :=
  { councillor := some "Bob King", council_name := some "City of B",
    council_website := some "http://b.gov.au/", email := some "bob@b.gov.au" }

/-- A stored Person Record eligible for search (all required fields, no
email yet). -/
def personRowC : JRow :=
  { councillor := some "Cara Lee", council_name := some "Town of C",
    council_website := some "http://c.gov.au" }

/-- A second eligible stored Person Record. -/
def personRowD : JRow :=
  { councillor := some "Dee Park", council_name := some "Town of D",
    council_website := some "http://d.gov.au" }

/-- A stored Person Record carrying the sentinel email `"none"`. -/
def noneRow : JRow :=
  { councillor := some "Eve Moss", council_name := some "Town of E",
    council_website := some "http://e.gov.au", email := some "none" }

/-- The 201-row store used against C9: two hundred eligible rows in front of
one sentinel row, so the budget is exhausted before the sentinel row is
reached. -/
def c9rows : List JRow := List.replicate MAX_SEARCHES_PER_RUN personRowC ++ [noneRow]

/-- The shape `EMAIL_REGEX` describes: a nonempty local part over
`[a-zA-Z0-9._%+-]`, a literal `@`, a nonempty domain over `[a-zA-Z0-9.-]`, a
literal `.`, and a tld of two to four lowercase letters. -/
def emailShape (s : List Char) : Prop :=
  ∃ lp dom tld, s = lp ++ '@' :: dom ++ '.' :: tld ∧
    lp ≠ [] ∧ (∀ c ∈ lp, isLocalChar c = true) ∧
    dom ≠ [] ∧ (∀ c ∈ dom, isDomainChar c = true) ∧
    2 ≤ tld.length ∧ tld.length ≤ 4 ∧ ∀ c ∈ tld, c.isLower = true

/-- `ScanExact text ms` says `ms` is exactly the list of leftmost
non-overlapping matches of the email pattern in `text`, in order of
appearance: `text` splits as `g₀ ++ m₁ ++ (g₁ ++ m₂ ++ (... ++ gₖ))` where no
match starts at any position inside any gap (the scan skipped those
positions because `tryMatch` fails there) and each `mᵢ` is the pattern's
match at its own start position.  This pins down the whole output of the
global scan, not just the shape of what it returns. -/
inductive ScanExact : List Char → List (List Char) → Prop where
  | nil (g : List Char) (hg : ∀ k, tryMatch (g.drop k) = none) : ScanExact g []
  | cons (g m rest : List Char) (ms : List (List Char))
      (hg : ∀ k, k < g.length → tryMatch (g.drop k ++ m ++ rest) = none)
      (hm : tryMatch (m ++ rest) = some (m, rest))
      (hrec : ScanExact rest ms) : ScanExact (g ++ m ++ rest) (m :: ms)

end Scraper

namespace Scraper

theorem sanity_levenshtein_kitten :
    levenshtein "kitten".toList "sitting".toList = 3 := by decide

theorem sanity_matchEmails_example :
    matchEmails "contact jane@council.gov.au now" = ["jane@council.gov.au"] := by
  decide

theorem sanity_matchEmails_double_at : matchEmails "jane@@x" = [] := by decide

theorem sanity_matchEmails_trunc : matchEmails "a@b.comx" = ["a@b.comx"] := by
  decide

theorem sanity_getBestEmail_jane :
    getBestEmail "Jane Smith" ["jane.smith@council.gov.au", "random@other.com"] =
      some ("email", "jane.smith@council.gov.au") := by decide

theorem sanity_getBestEmail_nomatch :
    getBestEmail "Jane Smith" ["random@other.com"] =
      some ("no-matching-email", "random@other.com") := by decide

theorem sanity_getBestEmail_empty :
    getBestEmail "Jane Smith" [] = some ("no-email-found", "") := by decide

theorem sanity_getBestEmail_crash :
    getBestEmail "Jane Smith" ["@x.com"] = none := by decide

theorem sanity_getBestEmail_sort_anomaly :
    getBestEmail "jo" ["joaaaaaaaaaa@a.com", "joxx@a.com"] =
      some ("email", "joaaaaaaaaaa@a.com") := by decide

/-!
Identity Keyer and Source Reconciler lemmas.
-/

theorem truthy_none : truthy none = false := rfl

theorem jsOr_none_some_empty (x : Option String) :
    jsOr (jsOr x none) (some "") = jsOr x (some "") := by
  by_cases h : truthy x = true
  · simp [jsOr, h]
  · have h' : truthy x = false := by simpa using h
    simp [jsOr, h', truthy_none]

theorem keyFromRow_normalizeRow (r : JRow) :
    keyFromRow (normalizeRow r) = keyFromRow r := by
  simp only [keyFromRow, normalizeRow, jsOr_none_some_empty]

theorem mergeSD_keys_mem (rs : List JRow) :
    ∀ (keys : List String) (x : String),
      x ∈ (mergeStateDatabase keys rs).2 ↔
        x ∈ keys ∨ x ∈ (mergeStateDatabase keys rs).1.map keyFromRow := by
  induction rs with
  | nil => intro keys x; simp [mergeStateDatabase]
  | cons r rs ih =>
    intro keys x
    by_cases h : keyFromRow r ∈ keys
    · simp only [mergeStateDatabase, if_pos h]
      exact ih keys x
    · simp only [mergeStateDatabase, if_neg h, List.map_cons,
        keyFromRow_normalizeRow, List.mem_cons]
      rw [ih (keyFromRow r :: keys) x]
      simp only [List.mem_cons]
      tauto

theorem mergeSD_out_keys_not_in (rs : List JRow) :
    ∀ (keys : List String), ∀ r' ∈ (mergeStateDatabase keys rs).1,
      keyFromRow r' ∉ keys := by
  induction rs with
  | nil => intro keys r' h; simp [mergeStateDatabase] at h
  | cons r rs ih =>
    intro keys r' h
    by_cases hk : keyFromRow r ∈ keys
    · simp only [mergeStateDatabase, if_pos hk] at h
      exact ih keys r' h
    · simp only [mergeStateDatabase, if_neg hk, List.mem_cons] at h
      rcases h with h | h
      · subst h
        rw [keyFromRow_normalizeRow]
        exact hk
      · intro hmem
        exact ih (keyFromRow r :: keys) r' h (List.mem_cons_of_mem _ hmem)

theorem mergeSD_out_keys_nodup (rs : List JRow) :
    ∀ (keys : List String),
      ((mergeStateDatabase keys rs).1.map keyFromRow).Nodup := by
  induction rs with
  | nil => intro keys; simp [mergeStateDatabase]
  | cons r rs ih =>
    intro keys
    by_cases hk : keyFromRow r ∈ keys
    · simp only [mergeStateDatabase, if_pos hk]
      exact ih keys
    · simp only [mergeStateDatabase, if_neg hk, List.map_cons,
        keyFromRow_normalizeRow, List.nodup_cons]
      refine ⟨?_, ih (keyFromRow r :: keys)⟩
      intro hmem
      rcases List.mem_map.mp hmem with ⟨r', hr', hkey⟩
      exact mergeSD_out_keys_not_in rs (keyFromRow r :: keys) r' hr'
        (hkey ▸ List.mem_cons_self _ _)

theorem mergeSD_covers (rs : List JRow) :
    ∀ (keys : List String), ∀ x ∈ rs,
      keyFromRow x ∈ keys ∨
        keyFromRow x ∈ (mergeStateDatabase keys rs).1.map keyFromRow := by
  induction rs with
  | nil => intro keys x h; cases h
  | cons r rs ih =>
    intro keys x hx
    by_cases hk : keyFromRow r ∈ keys
    · simp only [mergeStateDatabase, if_pos hk]
      rcases List.mem_cons.mp hx with h | h
      · exact Or.inl (h ▸ hk)
      · exact ih keys x h
    · simp only [mergeStateDatabase, if_neg hk, List.map_cons, keyFromRow_normalizeRow]
      rcases List.mem_cons.mp hx with h | h
      · exact Or.inr (h ▸ List.mem_cons_self _ _)
      · rcases ih (keyFromRow r :: keys) x h with h' | h'
        · rcases List.mem_cons.mp h' with h'' | h''
          · exact Or.inr (h'' ▸ List.mem_cons_self _ _)
          · exact Or.inl h''
        · exact Or.inr (List.mem_cons_of_mem _ h')

theorem mergeSD_all_known (rs : List JRow) :
    ∀ (keys : List String), (∀ x ∈ rs, keyFromRow x ∈ keys) →
      (mergeStateDatabase keys rs).1 = [] := by
  induction rs with
  | nil => intro keys _; rfl
  | cons r rs ih =>
    intro keys h
    have hk : keyFromRow r ∈ keys := h r (List.mem_cons_self _ _)
    simp only [mergeStateDatabase, if_pos hk]
    exact ih keys (fun x hx => h x (List.mem_cons_of_mem _ hx))

theorem mergeSD_append (l1 : List JRow) :
    ∀ (keys : List String) (l2 : List JRow),
      mergeStateDatabase keys (l1 ++ l2) =
        ((mergeStateDatabase keys l1).1 ++
            (mergeStateDatabase (mergeStateDatabase keys l1).2 l2).1,
          (mergeStateDatabase (mergeStateDatabase keys l1).2 l2).2) := by
  induction l1 with
  | nil => intro keys l2; simp [mergeStateDatabase]
  | cons r rs ih =>
    intro keys l2
    by_cases hk : keyFromRow r ∈ keys
    · simp only [List.cons_append, mergeStateDatabase, if_pos hk]
      exact ih keys l2
    · simp only [List.cons_append, mergeStateDatabase, if_neg hk, List.append_eq]
      rw [ih (keyFromRow r :: keys) l2]

theorem mergePass_eq_flatten (bs : List (List JRow)) :
    ∀ (keys : List String),
      mergePass keys bs = mergeStateDatabase keys bs.flatten := by
  induction bs with
  | nil => intro keys; simp [mergePass, mergeStateDatabase]
  | cons b bs ih =>
    intro keys
    simp only [mergePass, List.flatten_cons, mergeSD_append, ih]

theorem mergeSD_out_shape (rs : List JRow) :
    ∀ (keys : List String), ∀ r' ∈ (mergeStateDatabase keys rs).1,
      ∃ x ∈ rs, r' = normalizeRow x ∧ keyFromRow x ∉ keys := by
  induction rs with
  | nil => intro keys r' h; simp [mergeStateDatabase] at h
  | cons r rs ih =>
    intro keys r' h
    by_cases hk : keyFromRow r ∈ keys
    · simp only [mergeStateDatabase, if_pos hk] at h
      rcases ih keys r' h with ⟨x, hx, hnorm, hnew⟩
      exact ⟨x, List.mem_cons_of_mem _ hx, hnorm, hnew⟩
    · simp only [mergeStateDatabase, if_neg hk, List.mem_cons] at h
      rcases h with h | h
      · exact ⟨r, List.mem_cons_self _ _, h, hk⟩
      · rcases ih (keyFromRow r :: keys) r' h with ⟨x, hx, hnorm, hnew⟩
        exact ⟨x, List.mem_cons_of_mem _ hx, hnorm,
          fun hmem => hnew (List.mem_cons_of_mem _ hmem)⟩


/-- C3: Source Reconciler deduplication — over a whole pass, every merged row
has a key new to the known set, output keys occur with multiplicity 1 even
across batches, every external record's key is either already known or among
the output keys (so exactly the new identities are emitted, as normalized
rows), and re-running the pass against the known set extended by the first
output yields nothing. -/
theorem c3_reconciler_dedup (keys : List String) (bs : List (List JRow)) :
    (∀ r' ∈ (mergePass keys bs).1, keyFromRow r' ∉ keys) ∧
    ((mergePass keys bs).1.map keyFromRow).Nodup ∧
    (∀ r' ∈ (mergePass keys bs).1, ∃ x ∈ bs.flatten,
      r' = normalizeRow x ∧ keyFromRow x ∉ keys) ∧
    (∀ x ∈ bs.flatten, keyFromRow x ∈ keys ∨
      keyFromRow x ∈ (mergePass keys bs).1.map keyFromRow) ∧
    (mergePass (keys ++ (mergePass keys bs).1.map keyFromRow) bs).1 = [] := by
  rw [mergePass_eq_flatten]
  refine ⟨mergeSD_out_keys_not_in bs.flatten keys,
    mergeSD_out_keys_nodup bs.flatten keys,
    mergeSD_out_shape bs.flatten keys,
    mergeSD_covers bs.flatten keys, ?_⟩
  rw [mergePass_eq_flatten]
  apply mergeSD_all_known
  intro x hx
  rcases mergeSD_covers bs.flatten keys x hx with h | h
  · exact List.mem_append_left _ h
  · exact List.mem_append_right _ h

/-- Witness for C3 at a concrete known set and batches: the pass over two
batches that both contain `extRowA` (and whose second batch adds `extRowB`,
already known) emits exactly one normalized copy of `extRowA`, and the second
pass emits nothing. -/
theorem c3_reconciler_dedup_witness :
    keyFromRow (normalizeRow extRowA) ∉ [keyFromRow extRowB] ∧
    (mergePass [keyFromRow extRowB] [[extRowA], [extRowA, extRowB]]).1 =
      [normalizeRow extRowA] ∧
    (mergePass ([keyFromRow extRowB] ++
        (mergePass [keyFromRow extRowB] [[extRowA], [extRowA, extRowB]]).1.map keyFromRow)
      [[extRowA], [extRowA, extRowB]]).1 = [] := by
  refine ⟨?_, by decide, ?_⟩
  · exact (c3_reconciler_dedup [keyFromRow extRowB] [[extRowA], [extRowA, extRowB]]).1
      (normalizeRow extRowA) (by decide)
  · exact (c3_reconciler_dedup [keyFromRow extRowB] [[extRowA], [extRowA, extRowB]]).2.2.2.2

/-- C10: normalization preserves identity — the identity key of the
normalized Person Record equals the key of the external record it came from,
and consequently re-merging an external record against a known set that
already contains its normalized row's key adds nothing. -/
theorem c10_normalization_preserves_identity :
    (∀ r : JRow, keyFromRow (normalizeRow r) = keyFromRow r) ∧
    (∀ (K : List String) (r : JRow),
      (mergeStateDatabase (keyFromRow (normalizeRow r) :: K) [r]).1 = []) := by
  refine ⟨keyFromRow_normalizeRow, fun K r => ?_⟩
  apply mergeSD_all_known
  intro x hx
  rcases List.mem_singleton.mp hx with rfl
  rw [keyFromRow_normalizeRow]
  exact List.mem_cons_self _ _

/-- C4: the claimed partial-success of the reconciliation pass fails — when
the first dataset's fetch errors, `fetchDatabase` hands `null` to its
callback, `mergeStateDatabase` throws on `null.forEach`, and the pass dies
without merging the healthy second dataset or reaching the persistence
callback (`none`); the same two datasets with the first one healthy would
have merged fine. -/
theorem c4_partial_success_fails :
    fetchAndMergePass [] [none, some [extRowB]] = none ∧
    fetchAndMergePass [] [some [extRowA], some [extRowB]] =
      some [normalizeRow extRowA, normalizeRow extRowB] := by
  exact ⟨rfl, by decide⟩

/-!
Resolution Loop lemmas: page fetching (C5).
-/

theorem getEmailsInResultPage_fetched (fetch : String → String) (rs : List SearchResult) :
    ∀ (index : Nat) (emails : List String),
      (getEmailsInResultPage fetch rs index emails).2 =
        (rs.take (MAX_SEARCH_RESULTS - index)).map SearchResult.url := by
  induction rs with
  | nil => intro index emails; simp [getEmailsInResultPage]
  | cons r rest ih =>
    intro index emails
    by_cases h : MAX_SEARCH_RESULTS ≤ index
    · simp [getEmailsInResultPage, h, Nat.sub_eq_zero_of_le h]
    · have hs : MAX_SEARCH_RESULTS - index = (MAX_SEARCH_RESULTS - (index + 1)) + 1 := by
        omega
      simp only [getEmailsInResultPage, if_neg h, ih (index + 1)]
      rw [hs, List.take_succ_cons, List.map_cons]

/-- C5 counterexample: a result item carrying a `fileFormat` flag is *not*
skipped — its URL is passed to the page-fetch collaborator (the code has no
`fileFormat` check at all). -/
theorem c5_counterexample :
    (getEmailsInResultPage (fun _ => "")
      [{ url := "http://a.gov.au/list.pdf", content := "", fileFormat := some "PDF" }]
      0 []).2 = ["http://a.gov.au/list.pdf"] := by decide

/-- C5 amended: the bound is real but the skip is not — the URLs passed to
the page-fetch collaborator are exactly those of the first
`MAX_SEARCH_RESULTS` results, in order, regardless of any `fileFormat`
flag. -/
theorem c5_fetch_bound (fetch : String → String) (results : List SearchResult)
    (emails : List String) :
    (getEmailsInResultPage fetch results 0 emails).2 =
      (results.take MAX_SEARCH_RESULTS).map SearchResult.url := by
  simpa using getEmailsInResultPage_fetched fetch results 0 emails

/-!
Match Scorer lemmas (C1, C7).
-/

theorem strLt_asymm : ∀ {a b : List Char}, strLt a b = true → strLt b a = false
  | _, [], h => by simp [strLt] at h
  | [], _ :: _, _ => by simp [strLt]
  | a :: as, b :: bs, h => by
    by_cases hab : a = b
    · subst hab
      simp only [strLt, if_pos rfl] at h ⊢
      exact strLt_asymm h
    · simp only [strLt, if_neg hab] at h
      have hba : ¬ b = a := fun hh => hab hh.symm
      simp only [strLt, if_neg hba]
      simp only [decide_eq_true_eq] at h
      simp only [decide_eq_false_iff_not]
      exact lt_asymm h

theorem strLt_trans : ∀ {a b c : List Char},
    strLt a b = true → strLt b c = true → strLt a c = true
  | _, _, [], _, hbc => by simp [strLt] at hbc
  | _, [], _ :: _, hab, _ => by simp [strLt] at hab
  | [], _ :: _, _ :: _, _, _ => by simp [strLt]
  | a :: as, b :: bs, c :: cs, hab, hbc => by
    by_cases h1 : a = b
    · subst h1
      simp only [strLt, if_pos rfl] at hab
      by_cases h2 : a = c
      · subst h2
        simp only [strLt, if_pos rfl] at hbc ⊢
        exact strLt_trans hab hbc
      · simp only [strLt, if_neg h2] at hbc ⊢
        exact hbc
    · simp only [strLt, if_neg h1, decide_eq_true_eq] at hab
      by_cases h2 : b = c
      · have h3 : ¬ a = c := fun hh => h1 (hh.trans h2.symm)
        simp only [strLt, if_neg h3, decide_eq_true_eq]
        exact h2 ▸ hab
      · simp only [strLt, if_neg h2, decide_eq_true_eq] at hbc
        have hac : a < c := lt_trans hab hbc
        have h3 : ¬ a = c := ne_of_lt hac
        simp only [strLt, if_neg h3, decide_eq_true_eq]
        exact hac

theorem strLt_conn : ∀ {a b : List Char},
    strLt a b = false → strLt b a = false → a = b
  | [], [], _, _ => rfl
  | [], _ :: _, hab, _ => by simp [strLt] at hab
  | _ :: _, [], _, hba => by simp [strLt] at hba
  | a :: as, b :: bs, hab, hba => by
    by_cases h1 : a = b
    · subst h1
      simp only [strLt, if_pos rfl] at hab hba
      exact congrArg (a :: ·) (strLt_conn hab hba)
    · exfalso
      have hba' : ¬ b = a := fun hh => h1 hh.symm
      simp only [strLt, if_neg h1, decide_eq_false_iff_not] at hab
      simp only [strLt, if_neg hba', decide_eq_false_iff_not] at hba
      rcases lt_or_gt_of_ne h1 with h | h
      · exact hab h
      · exact hba h

instance : IsTotal LevTriple keyLe :=
  ⟨fun a b => by
    unfold keyLe
    rcases h : strLt (sortKey b).toList (sortKey a).toList with _ | _
    · exact Or.inl rfl
    · exact Or.inr (strLt_asymm h)⟩

instance : IsTrans LevTriple keyLe :=
  ⟨fun a b c hab hbc => by
    unfold keyLe at hab hbc ⊢
    rcases h : strLt (sortKey c).toList (sortKey a).toList with _ | _
    · rfl
    · exfalso
      rcases hba : strLt (sortKey b).toList (sortKey c).toList with _ | _
      · have heq := strLt_conn hba hbc
        rw [heq] at hab
        rw [hab] at h
        exact Bool.false_ne_true h
      · have h2 := strLt_trans hba h
        rw [hab] at h2
        exact Bool.false_ne_true h2⟩

theorem strLt_irrefl : ∀ (a : List Char), strLt a a = false
  | [] => rfl
  | c :: cs => by simp [strLt, strLt_irrefl cs]

theorem keyLe_refl (t : LevTriple) : keyLe t t := strLt_irrefl _

theorem triplesOf_isSome (nameLower : String) :
    ∀ (emails : List String), (∀ e ∈ emails, (userMatch (jsToLower e)).isSome) →
      (triplesOf nameLower emails).isSome := by
  intro emails
  induction emails with
  | nil => intro _; rfl
  | cons e es ih =>
    intro h
    have he : (userMatch (jsToLower e)).isSome := h e (List.mem_cons_self _ _)
    rcases Option.isSome_iff_exists.mp he with ⟨u, hu⟩
    have hes := ih (fun x hx => h x (List.mem_cons_of_mem _ hx))
    rcases Option.isSome_iff_exists.mp hes with ⟨ts, hts⟩
    simp [triplesOf, tripleOf, hu, hts]

/-- C7 counterexample: a candidate whose text has no leading local-part
character (for instance a leading `"@"`) makes `USER_REGEX` fail to match,
so `.toString()` is called on `null` and `getBestEmail` throws instead of
returning — modelled by `none`. -/
theorem c7_counterexample :
    getBestEmail "Jane Smith" ["@x.com"] = none := by decide

/-- C7 amended: `getBestEmail` returns a result without raising for every
name and every candidate list in which each candidate's lower-cased text
begins with at least one `USER_REGEX` character (true of every candidate the
Candidate Extractor produces); the unguarded case is the counterexample
above. -/
theorem c7_totality_amended (name : String) (emails : List String)
    (h : ∀ e ∈ emails, (userMatch (jsToLower e)).isSome) :
    (getBestEmail name emails).isSome := by
  have h2 := triplesOf_isSome (jsToLower (jsTrim name)) emails h
  rcases Option.isSome_iff_exists.mp h2 with ⟨ts, hts⟩
  cases hf : List.filter (matchPred (jsToLower (jsTrim name)))
      (List.insertionSort keyLe ts) with
  | cons t m => simp [getBestEmail, hts, hf]
  | nil =>
    cases hs : List.insertionSort keyLe ts with
    | nil => simp [getBestEmail, hts, hs]
    | cons t s =>
      rw [hs] at hf
      simp [getBestEmail, hts, hs, hf]

/-- Witness for C7 at a concrete well-formed candidate list. -/
theorem c7_totality_amended_witness :
    (getBestEmail "Jane Smith" ["jane.smith@council.gov.au"]).isSome :=
  c7_totality_amended "Jane Smith" ["jane.smith@council.gov.au"] (by decide)

/-- C1 counterexample: the triples are sorted with JavaScript's default
(stringifying) comparator, so `"10,..." < "2,..."`; for name `"jo"` both
candidates match the name probes, the matching candidate `"joxx@a.com"` has
strictly smaller Levenshtein distance (2 versus 10), yet `getBestEmail`
returns the distance-10 candidate. -/
theorem c1_counterexample :
    getBestEmail "jo" ["joaaaaaaaaaa@a.com", "joxx@a.com"] =
      some ("email", "joaaaaaaaaaa@a.com") ∧
    triplesOf (jsToLower (jsTrim "jo")) ["joaaaaaaaaaa@a.com", "joxx@a.com"] =
      some [(10, "joaaaaaaaaaa@a.com", "joaaaaaaaaaa"), (2, "joxx@a.com", "joxx")] ∧
    matchPred (jsToLower (jsTrim "jo")) (2, "joxx@a.com", "joxx") = true ∧
    levenshtein "jo".toList "joxx".toList <
      levenshtein "jo".toList "joaaaaaaaaaa".toList := by decide

/-- C1 amended: whenever at least one candidate's user part contains the
first- or last-name probe, `getBestEmail` returns outcome `"email"` together
with the matching candidate whose stringified triple
`"distance,email,user"` is least in code-unit lexicographic order (the
order JavaScript's default `sort()` establishes) — which agrees with minimum
Levenshtein distance only while the distance strings compare numerically,
e.g. when all are single-digit; the Jane Smith instance of the claim holds. -/
theorem c1_min_sortkey_selection :
    (∀ (name : String) (emails : List String) (ts : List LevTriple),
      triplesOf (jsToLower (jsTrim name)) emails = some ts →
      ts.filter (matchPred (jsToLower (jsTrim name))) ≠ [] →
      ∃ t, t ∈ ts.filter (matchPred (jsToLower (jsTrim name))) ∧
        getBestEmail name emails = some ("email", t.2.1) ∧
        ∀ t' ∈ ts.filter (matchPred (jsToLower (jsTrim name))), keyLe t t') ∧
    getBestEmail "Jane Smith" ["jane.smith@council.gov.au", "random@other.com"] =
      some ("email", "jane.smith@council.gov.au") := by
  constructor
  · intro name emails ts hts hne
    have hperm : List.Perm
        ((List.insertionSort keyLe ts).filter (matchPred (jsToLower (jsTrim name))))
        (ts.filter (matchPred (jsToLower (jsTrim name)))) :=
      (List.perm_insertionSort keyLe ts).filter _
    cases hf : (List.insertionSort keyLe ts).filter (matchPred (jsToLower (jsTrim name))) with
    | nil =>
      rw [hf] at hperm
      exact absurd hperm.symm.eq_nil hne
    | cons t m =>
      refine ⟨t, ?_, ?_, ?_⟩
      · exact hperm.mem_iff.mp (hf ▸ List.mem_cons_self _ _)
      · simp [getBestEmail, hts, hf]
      · intro t' ht'
        have ht'' : t' ∈ t :: m := hf ▸ hperm.mem_iff.mpr ht'
        have hsorted : List.Sorted keyLe
            ((List.insertionSort keyLe ts).filter (matchPred (jsToLower (jsTrim name)))) :=
          (List.sorted_insertionSort keyLe ts).filter _
        rw [hf] at hsorted
        rcases List.mem_cons.mp ht'' with rfl | hmem
        · exact keyLe_refl t'
        · exact (List.sorted_cons.mp hsorted).1 t' hmem
  · decide

/-- Witness for C1 at the Jane Smith instance: the matching triple of
distance 1 is selected and is keyLe-minimal among the matching triples. -/
theorem c1_min_sortkey_selection_witness :
    ∃ t, t ∈ ([(1, "jane.smith@council.gov.au", "jane.smith"),
        (7, "random@other.com", "random")] : List LevTriple).filter
        (matchPred (jsToLower (jsTrim "Jane Smith"))) ∧
      getBestEmail "Jane Smith" ["jane.smith@council.gov.au", "random@other.com"] =
        some ("email", t.2.1) ∧
      ∀ t' ∈ ([(1, "jane.smith@council.gov.au", "jane.smith"),
          (7, "random@other.com", "random")] : List LevTriple).filter
          (matchPred (jsToLower (jsTrim "Jane Smith"))), keyLe t t' :=
  c1_min_sortkey_selection.1 "Jane Smith"
    ["jane.smith@council.gov.au", "random@other.com"]
    [(1, "jane.smith@council.gov.au", "jane.smith"), (7, "random@other.com", "random")]
    (by decide) (by decide)

/-!
Run Scheduler lemmas (C2, C8, C9): the dispatch plan, the trace of issued
searches, and the row-level effects of the run.
-/


theorem planStep_cases (c : Nat) (row : JRow) :
    (planStep c row = (row, true, c + 1) ∧ ¬ MAX_SEARCHES_PER_RUN ≤ c ∧
      truthy row.email = false ∧ truthy row.councillor = true ∧
      truthy row.council_website = true) ∨
    ((planStep c row).2.1 = false ∧ (planStep c row).2.2 = c ∧
      (planStep c row).1.email = row.email ∧
      (planStep c row).1.councillor = row.councillor ∧
      (planStep c row).1.council_website = row.council_website ∧
      ((planStep c row).1.result = row.result ∨
        (planStep c row).1.result = some "existing-email" ∨
        (planStep c row).1.result = some "no-councillor-name" ∨
        (planStep c row).1.result = some "no-council-website")) := by
  by_cases h1 : MAX_SEARCHES_PER_RUN ≤ c
  · right; simp [planStep, h1]
  · by_cases h2 : truthy row.email = true
    · right; simp [planStep, h1, h2]
    · have h2' : truthy row.email = false := by simpa using h2
      by_cases h3 : truthy row.councillor = true
      · by_cases h4 : truthy row.council_website = true
        · left
          refine ⟨?_, h1, h2', h3, h4⟩
          simp [planStep, h1, h2', h3, h4]
        · have h4' : truthy row.council_website = false := by simpa using h4
          right; simp [planStep, h1, h2', h3, h4']
      · have h3' : truthy row.councillor = false := by simpa using h3
        right; simp [planStep, h1, h2', h3']

theorem planStep_count (c : Nat) (row : JRow) :
    (planStep c row).2.2 = c + (if (planStep c row).2.1 then 1 else 0) := by
  rcases planStep_cases c row with ⟨h, _⟩ | ⟨h1, h2, _⟩
  · rw [h]; rfl
  · rw [h1, h2]
    simp

theorem findEmailsPlan_length (rows : List JRow) :
    ∀ (c : Nat), (findEmailsPlan rows c).length = rows.length := by
  induction rows with
  | nil => intro c; rfl
  | cons r rs ih => intro c; simp [findEmailsPlan, ih]

theorem findEmailsPlan_getD (rows : List JRow) :
    ∀ (c i : Nat), i < rows.length →
      (findEmailsPlan rows c).getD i (default, false) =
        planOut (c + dispatchCount ((findEmailsPlan rows c).take i))
          (rows.getD i default) := by
  induction rows with
  | nil => intro c i hi; cases hi
  | cons r rs ih =>
    intro c i hi
    cases i with
    | zero =>
      simp [findEmailsPlan, dispatchCount, planOut]
    | succ i =>
      have hi' : i < rs.length := by simpa using hi
      have step := planStep_count c r
      simp only [findEmailsPlan, List.getD_cons_succ, List.take_succ_cons]
      rw [ih (planStep c r).2.2 i hi']
      congr 1
      simp only [dispatchCount, List.filter_cons]
      cases hd : (planStep c r).2.1 with
      | false =>
        rw [step, hd]
        simp
      | true =>
        rw [step, hd]
        simp only [if_true, List.length_cons]
        omega

theorem searchesIssuedAux_mem_dispatch (plan : List (JRow × Bool)) :
    ∀ (j i : Nat), i ∈ searchesIssuedAux j plan →
      j ≤ i ∧ i - j < plan.length ∧ (plan.getD (i - j) (default, false)).2 = true := by
  induction plan with
  | nil => intro j i h; simp [searchesIssuedAux] at h
  | cons p rest ih =>
    rcases p with ⟨r, d⟩
    intro j i h
    cases d with
    | false =>
      simp only [searchesIssuedAux, Bool.false_eq_true, if_false] at h
      rcases ih (j + 1) i h with ⟨h1, h2, h3⟩
      have hij : i - j = (i - (j + 1)) + 1 := by omega
      refine ⟨by omega, by simp only [List.length_cons]; omega, ?_⟩
      rw [hij, List.getD_cons_succ]
      exact h3
    | true =>
      simp only [searchesIssuedAux, if_true, List.mem_cons] at h
      rcases h with rfl | h
      · exact ⟨le_refl _, by simp, by simp⟩
      · rcases ih (j + 1) i h with ⟨h1, h2, h3⟩
        have hij : i - j = (i - (j + 1)) + 1 := by omega
        refine ⟨by omega, by simp only [List.length_cons]; omega, ?_⟩
        rw [hij, List.getD_cons_succ]
        exact h3

theorem searchesIssuedAux_length_le (rows : List JRow) :
    ∀ (c j : Nat),
      (searchesIssuedAux j (findEmailsPlan rows c)).length ≤
        MAX_SEARCHES_PER_RUN - c := by
  induction rows with
  | nil => intro c j; simp [findEmailsPlan, searchesIssuedAux]
  | cons r rs ih =>
    intro c j
    rcases planStep_cases c r with ⟨hstep, hc, _⟩ | ⟨h1, h2, _⟩
    · rw [findEmailsPlan, hstep]
      have hrec := ih (c + 1) (j + 1)
      simp only [searchesIssuedAux, if_true, List.length_cons]
      omega
    · rw [findEmailsPlan]
      rw [show ((planStep c r).1, (planStep c r).2.1) =
        ((planStep c r).1, false) from by rw [h1], h2]
      simp only [searchesIssuedAux, Bool.false_eq_true, if_false]
      exact ih c (j + 1)

theorem runSearchesAux_trace (fetch render : String → String)
    (oracle : Nat → SearchResponse) :
    ∀ (plan : List (JRow × Bool)) (j : Nat) (out : List JRow) (tr : List Nat),
      runSearchesAux fetch render oracle j plan = some (out, tr) →
      tr = searchesIssuedAux j plan := by
  intro plan
  induction plan with
  | nil =>
    intro j out tr h
    simp only [runSearchesAux, Option.some_inj, Prod.mk.injEq] at h
    rw [← h.2]
    rfl
  | cons p rest ih =>
    rcases p with ⟨r, d⟩
    intro j out tr h
    cases d with
    | false =>
      simp only [runSearchesAux] at h
      rcases hrec : runSearchesAux fetch render oracle (j + 1) rest with _ | ⟨out', tr'⟩
      · rw [hrec] at h; cases h
      · rw [hrec] at h
        simp only [Option.map_some', Option.some_inj, Prod.mk.injEq] at h
        simp only [searchesIssuedAux, Bool.false_eq_true, if_false]
        rw [← h.2]
        exact ih (j + 1) out' tr' hrec
    | true =>
      simp only [runSearchesAux] at h
      rcases hge : getEmail fetch render (oracle j) r with _ | r'
      · rw [hge] at h; cases h
      · rw [hge] at h
        rcases hrec : runSearchesAux fetch render oracle (j + 1) rest with _ | ⟨out', tr'⟩
        · rw [hrec] at h; cases h
        · rw [hrec] at h
          simp only [Option.map_some', Option.some_inj, Prod.mk.injEq] at h
          simp only [searchesIssuedAux, if_true]
          rw [← h.2]
          rw [ih (j + 1) out' tr' hrec]

theorem runSearchesAux_get (fetch render : String → String)
    (oracle : Nat → SearchResponse) :
    ∀ (plan : List (JRow × Bool)) (j : Nat) (out : List JRow) (tr : List Nat),
      runSearchesAux fetch render oracle j plan = some (out, tr) →
      out.length = plan.length ∧
      ∀ k, k < plan.length →
        ((plan.getD k (default, false)).2 = false →
          out.getD k default = (plan.getD k (default, false)).1) ∧
        ((plan.getD k (default, false)).2 = true →
          getEmail fetch render (oracle (j + k)) (plan.getD k (default, false)).1 =
            some (out.getD k default)) := by
  intro plan
  induction plan with
  | nil =>
    intro j out tr h
    simp only [runSearchesAux, Option.some_inj, Prod.mk.injEq] at h
    rw [← h.1]
    exact ⟨rfl, fun k hk => absurd hk (Nat.not_lt_zero k)⟩
  | cons p rest ih =>
    rcases p with ⟨r, d⟩
    intro j out tr h
    cases d with
    | false =>
      simp only [runSearchesAux] at h
      rcases hrec : runSearchesAux fetch render oracle (j + 1) rest with _ | ⟨out', tr'⟩
      · rw [hrec] at h; cases h
      · rw [hrec] at h
        simp only [Option.map_some', Option.some_inj, Prod.mk.injEq] at h
        rw [← h.1]
        rcases ih (j + 1) out' tr' hrec with ⟨hlen, hget⟩
        refine ⟨by simp [hlen], fun k hk => ?_⟩
        cases k with
        | zero => exact ⟨fun _ => rfl, fun hcon => by cases hcon⟩
        | succ k =>
          have hk' : k < rest.length := by simpa using hk
          have := hget k hk'
          simp only [List.getD_cons_succ]
          have harith : j + 1 + k = j + (k + 1) := by omega
          rw [← harith]
          exact this
    | true =>
      simp only [runSearchesAux] at h
      rcases hge : getEmail fetch render (oracle j) r with _ | r'
      · rw [hge] at h; cases h
      · rw [hge] at h
        rcases hrec : runSearchesAux fetch render oracle (j + 1) rest with _ | ⟨out', tr'⟩
        · rw [hrec] at h; cases h
        · rw [hrec] at h
          simp only [Option.map_some', Option.some_inj, Prod.mk.injEq] at h
          rw [← h.1]
          rcases ih (j + 1) out' tr' hrec with ⟨hlen, hget⟩
          refine ⟨by simp [hlen], fun k hk => ?_⟩
          cases k with
          | zero =>
            refine ⟨fun hcon => Bool.noConfusion hcon, fun _ => ?_⟩
            simpa using hge
          | succ k =>
            have hk' : k < rest.length := by simpa using hk
            have := hget k hk'
            simp only [List.getD_cons_succ]
            have harith : j + 1 + k = j + (k + 1) := by omega
            rw [← harith]
            exact this

theorem updateOpsAux_mem (rows : List JRow) :
    ∀ (j n : Nat) (v : Option String), (n, v) ∈ updateOpsAux j rows →
      ∃ k, k < rows.length ∧ n = j + k + 1 ∧
        ((rows.getD k default).result = some "email" ∨
          (rows.getD k default).result = some "no-matching-email" ∨
          (rows.getD k default).result = some "no-email-found") := by
  induction rows with
  | nil => intro j n v h; simp [updateOpsAux] at h
  | cons r rs ih =>
    intro j n v h
    have hrest : (n, v) ∈ updateOpsAux (j + 1) rs →
        ∃ k, k < (r :: rs).length ∧ n = j + k + 1 ∧
          (((r :: rs).getD k default).result = some "email" ∨
            ((r :: rs).getD k default).result = some "no-matching-email" ∨
            ((r :: rs).getD k default).result = some "no-email-found") := by
      intro hmem
      rcases ih (j + 1) n v hmem with ⟨k, hk, hn, hres⟩
      exact ⟨k + 1, by simpa using hk, by omega, by simpa using hres⟩
    rcases hres : r.result with _ | res
    · simp only [updateOpsAux, hres] at h
      exact hrest h
    · simp only [updateOpsAux, hres] at h
      by_cases h1 : res = "email"
      · rw [if_pos h1] at h
        rcases List.mem_cons.mp h with heq | hmem
        · have hn : n = j + 1 := congrArg Prod.fst heq
          exact ⟨0, by simp, by omega, by simp [hres, h1]⟩
        · exact hrest hmem
      · rw [if_neg h1] at h
        by_cases h2 : res = "no-matching-email"
        · rw [if_pos h2] at h
          rcases List.mem_cons.mp h with heq | hmem
          · have hn : n = j + 1 := congrArg Prod.fst heq
            exact ⟨0, by simp, by omega, by simp [hres, h2]⟩
          · exact hrest hmem
        · rw [if_neg h2] at h
          by_cases h3 : res = "no-email-found"
          · rw [if_pos h3] at h
            rcases List.mem_cons.mp h with heq | hmem
            · have hn : n = j + 1 := congrArg Prod.fst heq
              exact ⟨0, by simp, by omega, by simp [hres, h3]⟩
            · exact hrest hmem
          · rw [if_neg h3] at h
            exact hrest h

theorem planOut_dispatched (c : Nat) (row rw : JRow)
    (h : planOut c row = (rw, true)) :
    rw = row ∧ truthy row.email = false ∧ truthy row.councillor = true ∧
      truthy row.council_website = true := by
  rcases planStep_cases c row with ⟨hstep, _, h2, h3, h4⟩ | ⟨h1, _⟩
  · have hp : planOut c row = (row, true) := by unfold planOut; rw [hstep]
    rw [hp] at h
    simp only [Prod.mk.injEq] at h
    exact ⟨h.1.symm, h2, h3, h4⟩
  · have : (planOut c row).2 = false := h1
    rw [h] at this
    cases this

theorem planOut_existing (c : Nat) (row : JRow) (h : truthy row.email = true) :
    planOut c row =
      (if MAX_SEARCHES_PER_RUN ≤ c then (row, false)
       else ({ row with result := some "existing-email" }, false)) := by
  by_cases hc : MAX_SEARCHES_PER_RUN ≤ c
  · simp [planOut, planStep, hc]
  · simp [planOut, planStep, hc, h]


/-- C2 counterexample: in a run over two eligible rows where every search
comes back structurally empty, row 0's outcome is `no-search-results` and
yet the search for the later row 1 is still issued (it is in the trace) —
`findEmails` contains no stop-on-`no-search-results` logic; all (up to 200)
searches are dispatched before any outcome is observed. -/
theorem c2_counterexample :
    (findEmailsRun (fun _ => "") (fun _ => "") (fun _ => SearchResponse.empty)
        [personRowC, personRowD]).isSome = true ∧
    ((((findEmailsRun (fun _ => "") (fun _ => "") (fun _ => SearchResponse.empty)
        [personRowC, personRowD]).getD ([], [])).1.getD 0 default).result =
      some "no-search-results") ∧
    1 ∈ ((findEmailsRun (fun _ => "") (fun _ => "") (fun _ => SearchResponse.empty)
        [personRowC, personRowD]).getD ([], [])).2 := by decide

/-- C2 amended: the run-stop condition is the budget alone — the set of
searches a run issues is exactly the dispatch plan (the first
`MAX_SEARCHES_PER_RUN` eligible rows in stored order), computed synchronously
before any search outcome exists and therefore independent of the search
collaborator's responses; its size never exceeds the budget.  A
`no-search-results` outcome does not stop later rows' searches. -/
theorem c2_budget_only (fetch render : String → String)
    (oracle : Nat → SearchResponse) (rows out : List JRow) (tr : List Nat)
    (hrun : findEmailsRun fetch render oracle rows = some (out, tr)) :
    tr = searchesIssued rows ∧ tr.length ≤ MAX_SEARCHES_PER_RUN := by
  have h1 := runSearchesAux_trace fetch render oracle (findEmailsPlan rows 0) 0 out tr hrun
  refine ⟨h1, ?_⟩
  rw [h1]
  simpa using searchesIssuedAux_length_le rows 0 0

/-- Witness for C2 at a concrete two-row run with failing searches. -/
theorem c2_budget_only_witness :
    ([0, 1] : List Nat) = searchesIssued [personRowC, personRowD] ∧
    ([0, 1] : List Nat).length ≤ MAX_SEARCHES_PER_RUN :=
  c2_budget_only (fun _ => "") (fun _ => "") (fun _ => SearchResponse.fail)
    [personRowC, personRowD]
    [{ personRowC with result := some "error-during-search" },
     { personRowD with result := some "error-during-search" }]
    [0, 1] (by decide)

/-- C8: search-error atomicity — a dispatched row whose search fails is
marked `error-during-search`, its in-memory email is untouched, `updateAll`
issues no statement for its rowid, and it still satisfies every dispatch
condition (no email, councillor and website present), so a future run
retries it. -/
theorem c8_search_error_atomicity (fetch render : String → String)
    (oracle : Nat → SearchResponse) (rows out : List JRow) (tr : List Nat)
    (i : Nat) (rw : JRow)
    (hrun : findEmailsRun fetch render oracle rows = some (out, tr))
    (hi : i < rows.length)
    (hplan : (findEmailsPlan rows 0).getD i (default, false) = (rw, true))
    (hfail : oracle i = SearchResponse.fail) :
    (out.getD i default).result = some "error-during-search" ∧
    (out.getD i default).email = (rows.getD i default).email ∧
    (∀ v : Option String, (i + 1, v) ∉ updateOps out) ∧
    truthy (out.getD i default).email = false ∧
    truthy (out.getD i default).councillor = true ∧
    truthy (out.getD i default).council_website = true := by
  have hip : i < (findEmailsPlan rows 0).length := by
    rw [findEmailsPlan_length rows 0]; exact hi
  rcases runSearchesAux_get fetch render oracle (findEmailsPlan rows 0) 0 out tr hrun
    with ⟨_, hget⟩
  have h2 := (hget i hip).2
  rw [hplan] at h2
  have h3 := h2 rfl
  rw [Nat.zero_add, hfail] at h3
  have hout : out.getD i default = { rw with result := some "error-during-search" } := by
    have : getEmail fetch render SearchResponse.fail rw =
        some { rw with result := some "error-during-search" } := rfl
    rw [this] at h3
    exact (Option.some_inj.mp h3).symm
  have hplan2 := findEmailsPlan_getD rows 0 i hi
  rw [hplan, Nat.zero_add] at hplan2
  rcases planOut_dispatched _ _ _ hplan2.symm with ⟨hrw, hemail, hcoun, hweb⟩
  subst hrw
  refine ⟨by rw [hout], by rw [hout], ?_, by rw [hout]; exact hemail,
    by rw [hout]; exact hcoun, by rw [hout]; exact hweb⟩
  intro v hmem
  rcases updateOpsAux_mem out 0 (i + 1) v hmem with ⟨k, _, hn, hres⟩
  have hk : k = i := by omega
  subst hk
  rw [hout] at hres
  simp at hres

/-- Witness for C8: a one-row run whose single search fails. -/
theorem c8_search_error_atomicity_witness :
    (([{ personRowC with result := some "error-during-search" }].getD 0 default).result =
      some "error-during-search") ∧
    (([{ personRowC with result := some "error-during-search" }].getD 0 default).email =
      ([personRowC].getD 0 default).email) ∧
    (∀ v : Option String,
      (0 + 1, v) ∉ updateOps [{ personRowC with result := some "error-during-search" }]) ∧
    truthy ([{ personRowC with result := some "error-during-search" }].getD 0
      default).email = false ∧
    truthy ([{ personRowC with result := some "error-during-search" }].getD 0
      default).councillor = true ∧
    truthy ([{ personRowC with result := some "error-during-search" }].getD 0
      default).council_website = true :=
  c8_search_error_atomicity (fun _ => "") (fun _ => "") (fun _ => SearchResponse.fail)
    [personRowC] [{ personRowC with result := some "error-during-search" }] [0] 0
    personRowC (by decide) (by decide) (by decide) rfl


set_option maxRecDepth 40000 in
/-- C9 counterexample: with 200 eligible rows before it, the `"none"` row is
skipped by the budget check *before* the email check runs, so the completed
run leaves its outcome unset — it is not classified `existing-email` (it is
still never searched). -/
theorem c9_counterexample :
    (findEmailsRun (fun _ => "") (fun _ => "") (fun _ => SearchResponse.fail)
      c9rows).isSome = true ∧
    (c9rows.getD MAX_SEARCHES_PER_RUN default).email = some "none" ∧
    (((findEmailsRun (fun _ => "") (fun _ => "") (fun _ => SearchResponse.fail)
        c9rows).getD ([], [])).1.getD MAX_SEARCHES_PER_RUN default).result = none := by
  decide

/-- C9 amended: a stored row whose email is the sentinel `"none"` is never
searched in any run (not in the trace), keeps its sentinel email, receives no
database update, and is classified `existing-email` whenever the run's
iteration reaches it before the search budget is exhausted (with the budget
already exhausted, the row is left unclassified — but still unsearched and
unchanged); since the run changes nothing about it, the same holds on every
subsequent run. -/
theorem c9_sentinel_amended (fetch render : String → String)
    (oracle : Nat → SearchResponse) (rows out : List JRow) (tr : List Nat)
    (i : Nat)
    (hrun : findEmailsRun fetch render oracle rows = some (out, tr))
    (hi : i < rows.length)
    (hnone : (rows.getD i default).email = some "none")
    (hres : (rows.getD i default).result = none) :
    i ∉ tr ∧
    (out.getD i default).email = some "none" ∧
    (∀ v : Option String, (i + 1, v) ∉ updateOps out) ∧
    (dispatchCount ((findEmailsPlan rows 0).take i) < MAX_SEARCHES_PER_RUN →
      (out.getD i default).result = some "existing-email") := by
  have hip : i < (findEmailsPlan rows 0).length := by
    rw [findEmailsPlan_length rows 0]; exact hi
  have htruthy : truthy (rows.getD i default).email = true := by
    rw [hnone]; rfl
  have hplan2 := findEmailsPlan_getD rows 0 i hi
  rw [Nat.zero_add, planOut_existing _ _ htruthy] at hplan2
  have hdisp : (( findEmailsPlan rows 0).getD i (default, false)).2 = false := by
    rw [hplan2]
    by_cases hc : MAX_SEARCHES_PER_RUN ≤ dispatchCount ((findEmailsPlan rows 0).take i)
    · rw [if_pos hc]
    · rw [if_neg hc]
  rcases runSearchesAux_get fetch render oracle (findEmailsPlan rows 0) 0 out tr hrun
    with ⟨_, hget⟩
  have hout := (hget i hip).1 hdisp
  have htrace := runSearchesAux_trace fetch render oracle (findEmailsPlan rows 0)
    0 out tr hrun
  have hnotin : i ∉ tr := by
    intro hmem
    rw [htrace] at hmem
    rcases searchesIssuedAux_mem_dispatch (findEmailsPlan rows 0) 0 i hmem
      with ⟨_, _, h3⟩
    rw [Nat.sub_zero] at h3
    rw [hdisp] at h3
    cases h3
  have houtval : (out.getD i default).email = some "none" ∧
      ((out.getD i default).result = none ∨
        (out.getD i default).result = some "existing-email") := by
    rw [hout, hplan2]
    by_cases hc : MAX_SEARCHES_PER_RUN ≤ dispatchCount ((findEmailsPlan rows 0).take i)
    · rw [if_pos hc]
      exact ⟨hnone, Or.inl hres⟩
    · rw [if_neg hc]
      exact ⟨hnone, Or.inr rfl⟩
  refine ⟨hnotin, houtval.1, ?_, ?_⟩
  · intro v hmem
    rcases updateOpsAux_mem out 0 (i + 1) v hmem with ⟨k, _, hn, hres3⟩
    have hk : k = i := by omega
    subst hk
    rcases houtval.2 with h | h <;> rw [h] at hres3 <;> simp at hres3
  · intro hc
    rw [hout, hplan2, if_neg (by omega : ¬ MAX_SEARCHES_PER_RUN ≤
      dispatchCount ((findEmailsPlan rows 0).take i))]

/-- Witness for C9 at a concrete store whose first row carries the sentinel. -/
theorem c9_sentinel_amended_witness :
    0 ∉ ([] : List Nat) ∧
    (([{ noneRow with result := some "existing-email" }].getD 0 default).email =
      some "none") ∧
    (∀ v : Option String,
      (0 + 1, v) ∉ updateOps [{ noneRow with result := some "existing-email" }]) ∧
    (dispatchCount ((findEmailsPlan [noneRow] 0).take 0) < MAX_SEARCHES_PER_RUN →
      (([{ noneRow with result := some "existing-email" }].getD 0 default).result =
        some "existing-email")) :=
  c9_sentinel_amended (fun _ => "") (fun _ => "") (fun _ => SearchResponse.fail)
    [noneRow] [{ noneRow with result := some "existing-email" }] [] 0
    (by decide) (by decide) (by decide) (by decide)

/-!
Candidate Extractor lemmas (C6): every match of the `EMAIL_REGEX` scan has
the email shape, the matches decompose the input in order without overlap,
and text without `@` yields no match.
-/

theorem toList_mk (l : List Char) : (String.mk l).toList = l := rfl

theorem map_toList_mk (ls : List (List Char)) :
    (ls.map String.mk).map String.toList = ls := by
  induction ls with
  | nil => rfl
  | cons l ls ih => simp [toList_mk, ih]

theorem findDomainSplit_spec :
    ∀ (D dom tld rem : List Char), findDomainSplit D = some (dom, tld, rem) →
      D = dom ++ '.' :: (tld ++ rem) ∧ 2 ≤ tld.length ∧ tld.length ≤ 4 ∧
        ∀ c ∈ tld, c.isLower = true := by
  intro D
  induction D with
  | nil => intro dom tld rem h; cases h
  | cons c cs ih =>
    intro dom tld rem h
    rcases hr : findDomainSplit cs with _ | ⟨⟨dom', tld', rem'⟩⟩
    · simp only [findDomainSplit, hr] at h
      by_cases hc : c = '.'
      · rw [if_pos hc] at h
        by_cases hlen : 2 ≤ (cs.takeWhile Char.isLower).length
        · rw [if_pos hlen] at h
          simp only [Option.some_inj, Prod.mk.injEq] at h
          obtain ⟨h1, h2, h3⟩ := h
          subst h1
          subst h2
          subst h3
          refine ⟨?_, ?_, ?_, ?_⟩
          · rw [hc]
            simp only [List.nil_append, List.cons.injEq, true_and]
            rw [← List.append_assoc, List.take_append_drop,
              List.takeWhile_append_dropWhile]
          · rw [List.length_take]
            omega
          · rw [List.length_take]
            omega
          · intro x hx
            exact List.mem_takeWhile_imp (List.mem_of_mem_take hx)
        · rw [if_neg hlen] at h; cases h
      · rw [if_neg hc] at h; cases h
    · simp only [findDomainSplit, hr, Option.some_inj, Prod.mk.injEq] at h
      obtain ⟨h1, h2, h3⟩ := h
      subst h1
      subst h2
      subst h3
      rcases ih dom' tld' rem' hr with ⟨hD, ht2, ht4, hlow⟩
      exact ⟨by rw [List.cons_append, hD], ht2, ht4, hlow⟩

theorem tryMatch_spec (cs m rest : List Char) (h : tryMatch cs = some (m, rest)) :
    cs = m ++ rest ∧ emailShape m := by
  rcases hd : cs.dropWhile isLocalChar with _ | ⟨c, rest2⟩
  · simp only [tryMatch, hd] at h
    exact Option.noConfusion h
  · simp only [tryMatch, hd] at h
    by_cases hlp : (cs.takeWhile isLocalChar).isEmpty = true
    · rw [if_pos hlp] at h; cases h
    · rw [if_neg hlp] at h
      by_cases hc : c = '@'
      · rw [if_pos hc] at h
        rcases hfd : findDomainSplit (rest2.takeWhile isDomainChar)
          with _ | ⟨⟨dom, tld, rem⟩⟩
        · simp only [hfd] at h
          exact Option.noConfusion h
        · simp only [hfd] at h
          by_cases hdom : dom.isEmpty = true
          · rw [if_pos hdom] at h; cases h
          · rw [if_neg hdom] at h
            simp only [Option.some_inj, Prod.mk.injEq] at h
            obtain ⟨hm, hrest⟩ := h
            rcases findDomainSplit_spec _ _ _ _ hfd with ⟨hD, ht2, ht4, hlow⟩
            have hsplit : cs = cs.takeWhile isLocalChar ++ ('@' :: rest2) := by
              rw [← hc, ← hd, List.takeWhile_append_dropWhile]
            have hr2 : rest2 = rest2.takeWhile isDomainChar ++
                rest2.dropWhile isDomainChar :=
              (List.takeWhile_append_dropWhile ..).symm
            constructor
            · rw [← hm, ← hrest]
              conv_lhs => rw [hsplit, hr2, hD]
              simp [List.append_assoc]
            · refine ⟨cs.takeWhile isLocalChar, dom, tld, hm.symm, ?_, ?_, ?_, ?_,
                ht2, ht4, hlow⟩
              · intro hnil
                rw [hnil] at hlp
                exact hlp rfl
              · intro x hx
                exact List.mem_takeWhile_imp hx
              · intro hnil
                rw [hnil] at hdom
                exact hdom rfl
              · intro x hx
                have : x ∈ rest2.takeWhile isDomainChar := by
                  rw [hD]
                  exact List.mem_append_left _ hx
                exact List.mem_takeWhile_imp this
      · rw [if_neg hc] at h; cases h

theorem tryMatch_nil : tryMatch [] = none := rfl

theorem scanEmails_nil : ∀ (fuel : Nat), scanEmails fuel [] = [] := by
  intro fuel
  cases fuel <;> rfl

theorem tryMatch_ne_nil (cs m rest : List Char) (h : tryMatch cs = some (m, rest)) :
    m ≠ [] := by
  rcases (tryMatch_spec cs m rest h).2 with ⟨lp, dom, tld, hm, hlp, _⟩
  rw [hm]
  intro hcon
  exact hlp (List.append_eq_nil.mp (List.append_eq_nil.mp hcon).1).1

theorem scanExact_cons_gap (c : Char) (l : List Char) (ms : List (List Char))
    (hc : tryMatch (c :: l) = none) (h : ScanExact l ms) : ScanExact (c :: l) ms := by
  revert hc
  induction h with
  | nil g hg =>
    intro hc
    refine ScanExact.nil (c :: g) ?_
    intro k
    cases k with
    | zero => exact hc
    | succ k => exact hg k
  | cons g mm rest ms' hg hm hrec _ =>
    intro hc
    have hg2 : ∀ k, k < (c :: g).length → tryMatch ((c :: g).drop k ++ mm ++ rest) = none := by
      intro k hk
      cases k with
      | zero => simpa using hc
      | succ k =>
        have hk2 : k < g.length := by simpa using hk
        simpa using hg k hk2
    have h2 := ScanExact.cons (c :: g) mm rest ms' hg2 hm hrec
    simpa using h2

theorem scanEmails_exact :
    ∀ (fuel : Nat) (cs : List Char), cs.length ≤ fuel →
      ScanExact cs (scanEmails fuel cs) := by
  intro fuel
  induction fuel with
  | zero =>
    intro cs hle
    have hnil : cs = [] := List.eq_nil_of_length_eq_zero (Nat.le_zero.mp hle)
    subst hnil
    exact ScanExact.nil [] (fun k => by rw [List.drop_nil]; exact tryMatch_nil)
  | succ fuel ih =>
    intro cs hle
    rcases ht : tryMatch cs with _ | ⟨⟨m, rest⟩⟩
    · cases cs with
      | nil =>
        simp only [scanEmails, ht]
        exact ScanExact.nil [] (fun k => by rw [List.drop_nil]; exact tryMatch_nil)
      | cons c cs' =>
        simp only [scanEmails, ht]
        have hlen : cs'.length ≤ fuel := by
          simp only [List.length_cons] at hle
          omega
        exact scanExact_cons_gap c cs' _ ht (ih cs' hlen)
    · have hsp := tryMatch_spec cs m rest ht
      have hne := tryMatch_ne_nil cs m rest ht
      simp only [scanEmails, ht]
      have hmr : tryMatch (m ++ rest) = some (m, rest) := by
        rw [← hsp.1]
        exact ht
      have hrest : rest.length ≤ fuel := by
        have h1 : cs.length = m.length + rest.length := by
          rw [hsp.1, List.length_append]
        have h2 : 1 ≤ m.length := by
          cases m with
          | nil => exact absurd rfl hne
          | cons a l => simp
        omega
      have h2 := ScanExact.cons [] m rest (scanEmails fuel rest)
        (fun k hk => absurd hk (Nat.not_lt_zero k)) hmr (ih rest hrest)
      rw [hsp.1]
      simpa using h2

theorem takeWhile_replicate_append (p : Char → Bool) (a : Char) (hp : p a = true) :
    ∀ (k : Nat) (rest : List Char),
      (List.replicate k a ++ rest).takeWhile p =
        List.replicate k a ++ rest.takeWhile p := by
  intro k
  induction k with
  | zero => intro rest; simp
  | succ k ih =>
    intro rest
    simp only [List.replicate_succ, List.cons_append, List.takeWhile_cons, hp,
      if_true]
    rw [ih rest]

theorem dropWhile_replicate_append (p : Char → Bool) (a : Char) (hp : p a = true) :
    ∀ (k : Nat) (rest : List Char),
      (List.replicate k a ++ rest).dropWhile p = rest.dropWhile p := by
  intro k
  induction k with
  | zero => intro rest; simp
  | succ k ih =>
    intro rest
    simp only [List.replicate_succ, List.cons_append, List.dropWhile_cons, hp,
      if_true]
    exact ih rest

theorem tryMatch_replicate_local (n : Nat) :
    tryMatch (List.replicate (n + 1) 'a' ++ "@ab.cd".toList) =
      some (List.replicate (n + 1) 'a' ++ "@ab.cd".toList, []) := by
  have htw := takeWhile_replicate_append isLocalChar 'a' (by decide) (n + 1)
    "@ab.cd".toList
  have hdw := dropWhile_replicate_append isLocalChar 'a' (by decide) (n + 1)
    "@ab.cd".toList
  have htw2 : ("@ab.cd".toList).takeWhile isLocalChar = [] := by decide
  have hdw2 : ("@ab.cd".toList).dropWhile isLocalChar = '@' :: "ab.cd".toList := by
    decide
  rw [htw2, List.append_nil] at htw
  rw [hdw2] at hdw
  have hlpne : (List.replicate (n + 1) 'a').isEmpty = false := by
    rw [List.replicate_succ]
    rfl
  have hfd : findDomainSplit ("ab.cd".toList.takeWhile isDomainChar) =
      some ("ab".toList, "cd".toList, []) := by decide
  simp only [tryMatch, htw, hdw, hlpne, Bool.false_eq_true, if_false, if_true, hfd]
  rw [if_neg (by decide : ¬ ("ab".toList.isEmpty = true))]
  rw [show List.dropWhile isDomainChar "ab.cd".toList = ([] : List Char) from by decide]
  simp only [List.append_nil, List.append_assoc,
    show ('@' :: "ab".toList) ++ '.' :: "cd".toList = "@ab.cd".toList from by decide]

theorem scanEmails_cons_of_tryMatch (fuel : Nat) (cs m rest : List Char)
    (h : tryMatch cs = some (m, rest)) :
    scanEmails (fuel + 1) cs = m :: scanEmails fuel rest := by
  simp only [scanEmails, h]


theorem scanEmails_sound :
    ∀ (fuel : Nat) (cs m : List Char), m ∈ scanEmails fuel cs → emailShape m := by
  intro fuel
  induction fuel with
  | zero => intro cs m h; cases h
  | succ fuel ih =>
    intro cs m h
    rcases ht : tryMatch cs with _ | ⟨⟨mm, rest⟩⟩
    · cases cs with
      | nil => simp [scanEmails, ht] at h
      | cons c cs' =>
        simp only [scanEmails, ht] at h
        exact ih cs' m h
    · simp only [scanEmails, ht, List.mem_cons] at h
      rcases h with rfl | h
      · exact (tryMatch_spec cs m rest ht).2
      · exact ih rest m h

theorem scanEmails_no_at :
    ∀ (fuel : Nat) (cs : List Char), (∀ c ∈ cs, c ≠ '@') →
      scanEmails fuel cs = [] := by
  intro fuel
  induction fuel with
  | zero => intro cs _; rfl
  | succ fuel ih =>
    intro cs hno
    rcases ht : tryMatch cs with _ | ⟨⟨mm, rest⟩⟩
    · cases cs with
      | nil => simp [scanEmails, ht]
      | cons c cs' =>
        simp only [scanEmails, ht]
        exact ih cs' (fun x hx => hno x (List.mem_cons_of_mem _ hx))
    · exfalso
      rcases tryMatch_spec cs mm rest ht with ⟨hcs, lp, dom, tld, hm, _⟩
      have hat : '@' ∈ cs := by
        rw [hcs, hm]
        simp
      exact hno '@' hat rfl

theorem matchEmails_replicate_local (n : Nat) :
    matchEmails (String.mk (List.replicate (n + 1) 'a' ++ "@ab.cd".toList)) =
      [String.mk (List.replicate (n + 1) 'a' ++ "@ab.cd".toList)] := by
  rw [matchEmails, toList_mk]
  have h6 : ("@ab.cd".toList).length = 6 := by decide
  have hlen : (List.replicate (n + 1) 'a' ++ "@ab.cd".toList).length = (n + 6) + 1 := by
    rw [List.length_append, List.length_replicate, h6]
  rw [hlen, scanEmails_cons_of_tryMatch (n + 6) _ _ _ (tryMatch_replicate_local n),
    scanEmails_nil]
  rfl

/-- C6 counterexample: the claim's bounded local-part length is false of
`scraper.js` — its `EMAIL_REGEX` local part is an unbounded `+`; a
60-character local part (longer than the 50-character cap of the one
revision of this regex that ever had a bound) is matched and returned in
full. -/
theorem c6_counterexample :
    matchEmails (String.mk (List.replicate 60 'a' ++ "@ab.cd".toList)) =
      [String.mk (List.replicate 60 'a' ++ "@ab.cd".toList)] ∧
    (((String.mk (List.replicate 60 'a' ++ "@ab.cd".toList)).toList.takeWhile
        isLocalChar).length = 60) := by decide

/-- C6 amended: `matchEmails` returns exactly the leftmost non-overlapping
matches of the email shape, in order of appearance — every returned string
is `local-part@domain.tld` with local part a *nonempty but unbounded* run
over `[A-Za-z0-9._%+-]`, domain a nonempty run over `[A-Za-z0-9.-]` and tld
two to four lowercase letters; the input splits into the matches and gaps
such that no match starts at any gap position (exhaustiveness of the scan);
text without `@` yields `[]`; for every `n` there is an input whose returned
match carries a local part of length `n + 1`; and the spec's two examples
hold. -/
theorem c6_candidate_extractor_amended :
    (∀ (text m : String), m ∈ matchEmails text → emailShape m.toList) ∧
    (∀ text : String, ScanExact text.toList ((matchEmails text).map String.toList)) ∧
    (∀ text : String, (∀ c ∈ text.toList, c ≠ '@') → matchEmails text = []) ∧
    (∀ n : Nat, ∃ m ∈ matchEmails (String.mk (List.replicate (n + 1) 'a' ++
        "@ab.cd".toList)),
      (m.toList.takeWhile isLocalChar).length = n + 1) ∧
    matchEmails "contact jane@council.gov.au now" = ["jane@council.gov.au"] ∧
    matchEmails "the quick brown fox jumps" = [] := by
  refine ⟨?_, ?_, ?_, ?_, by decide, by decide⟩
  · intro text m hm
    rcases List.mem_map.mp hm with ⟨l, hl, hml⟩
    rw [← hml, toList_mk]
    exact scanEmails_sound _ _ _ hl
  · intro text
    have h2 := scanEmails_exact text.toList.length text.toList (le_refl _)
    have h3 : (matchEmails text).map String.toList =
        scanEmails text.toList.length text.toList := by
      rw [matchEmails, map_toList_mk]
    rw [h3]
    exact h2
  · intro text h
    rw [matchEmails, scanEmails_no_at _ _ h]
    rfl
  · intro n
    refine ⟨String.mk (List.replicate (n + 1) 'a' ++ "@ab.cd".toList), ?_, ?_⟩
    · rw [matchEmails_replicate_local n]
      exact List.mem_singleton.mpr rfl
    · rw [toList_mk]
      have htw := takeWhile_replicate_append isLocalChar 'a' (by decide) (n + 1)
        "@ab.cd".toList
      have htw2 : ("@ab.cd".toList).takeWhile isLocalChar = [] := by decide
      rw [htw2, List.append_nil] at htw
      rw [htw, List.length_replicate]

/-- Witness for C6: the spec's example match has the email shape, a concrete
text without `@` scans to nothing, and the 4-character-local input has its
full local part matched. -/
theorem c6_candidate_extractor_amended_witness :
    emailShape ("jane@council.gov.au" : String).toList ∧
    matchEmails "no at sign here" = [] ∧
    (∃ m ∈ matchEmails (String.mk (List.replicate 4 'a' ++ "@ab.cd".toList)),
      (m.toList.takeWhile isLocalChar).length = 4) :=
  ⟨c6_candidate_extractor_amended.1 "contact jane@council.gov.au now"
      "jane@council.gov.au" (by decide),
    c6_candidate_extractor_amended.2.2.1 "no at sign here" (by decide),
    c6_candidate_extractor_amended.2.2.2.1 3⟩

end Scraper
